import Mathlib

/-!
Verification of the request/response marshaling layer of a qBittorrent
WebUI API client (`src/qbt.js`).

The development shallowly embeds the JavaScript source:

* JavaScript runtime values that actually flow through the marshaling code
  are modelled by `Qbt.JSv` (strings, integral numbers, booleans, `null`,
  `undefined`, and the resolved connection-options object).
* `JSON.stringify`, the two `String.replace` regex passes of `plainify`,
  and the builtin `encodeURI` are modelled character-by-character.
* The HTTP transport is a function from the built request to a canned
  response or transport error; `performRequest` consumes it once, and the
  list of issued requests is returned so that "exactly one request, no
  retry" is observable.
* The remote service's own form decoding (splitting on `&`, splitting each
  segment at the first `=`, percent-decoding with `+` as space, UTF-8) is
  modelled from the spec, since the decoder lives in the remote service,
  not in this repository.
-/

namespace Qbt

/-- Resolved connection options built by `connect` (qbt.js lines 13-17):
hostname, protocol (`"https:"` or `"http:"`), and resolved port. -/
structure ConnOptions where
  hostname : String
  protocol : String
  port : Nat
deriving DecidableEq, Repr

/-- JavaScript values that flow through the marshaling layer: parameter
values are strings, (integral) numbers or booleans; `undefined` and `null`
arise from the buggy call sites; `opts` is the connection-options object. -/
inductive JSv where
  | undefined
  | nullv
  | str (s : String)
  | num (n : Int)
  | bool (b : Bool)
  | opts (o : ConnOptions)
deriving DecidableEq, Repr

/-- Lowercase hex digit, used by `JSON.stringify` control-character
escapes (`\u00XX`). -/
def hexDigitLower (n : Nat) : Char :=
  if n < 10 then Char.ofNat (48 + n) else Char.ofNat (87 + n)

/-- Uppercase hex digit, used by `encodeURI` percent escapes. -/
def hexDigitUpper (n : Nat) : Char :=
  if n < 10 then Char.ofNat (48 + n) else Char.ofNat (55 + n)

/-- Escaping of one character inside a JSON string literal, as performed
by JavaScript's `JSON.stringify`. -/
def jsonEscapeChar (c : Char) : List Char :=
  if c = '"' then ['\\', '"']
  else if c = '\\' then ['\\', '\\']
  else if c = '\x08' then ['\\', 'b']
  else if c = '\x09' then ['\\', 't']
  else if c = '\x0a' then ['\\', 'n']
  else if c = '\x0c' then ['\\', 'f']
  else if c = '\x0d' then ['\\', 'r']
  else if c.toNat < 0x20 then
    ['\\', 'u', '0', '0', hexDigitLower (c.toNat / 16), hexDigitLower (c.toNat % 16)]
  else [c]

/-- A JSON string literal: quote, escaped characters, quote. -/
def jsonQuoteChars (s : String) : List Char :=
  '"' :: s.data.flatMap jsonEscapeChar ++ ['"']

/-- Rendering of one property value by `JSON.stringify`; `none` for
`undefined`, whose properties `JSON.stringify` drops entirely. -/
def jsonRender : JSv → Option (List Char)
  | .undefined => none
  | .nullv => some ("null".data)
  | .str s => some (jsonQuoteChars s)
  | .num n => some (toString n).data
  | .bool b => some (if b then "true".data else "false".data)
  | .opts o =>
      some ('\x7b' :: (jsonQuoteChars "hostname" ++ ':' :: jsonQuoteChars o.hostname
        ++ ',' :: jsonQuoteChars "protocol" ++ ':' :: jsonQuoteChars o.protocol
        ++ ',' :: jsonQuoteChars "port" ++ ':' :: (toString o.port).data) ++ ['\x7d'])

/-- Comma-separated concatenation, as `JSON.stringify` joins properties. -/
def joinComma : List (List Char) → List Char
  | [] => []
  | [x] => x
  | x :: xs => x ++ ',' :: joinComma xs

/-- Characters of `JSON.stringify` applied to a flat object given as an
ordered list of properties (JavaScript objects preserve insertion order). -/
def stringifyObj (l : List (String × JSv)) : List Char :=
  '\x7b' :: joinComma (l.filterMap fun kv =>
    (jsonRender kv.2).map fun r => jsonQuoteChars kv.1 ++ ':' :: r) ++ ['\x7d']

/-- Split a character list at the first occurrence of `t`:
`breakOnChar t l = some (a, b)` iff `l = a ++ t :: b` with `t ∉ a`. -/
def breakOnChar (t : Char) : List Char → Option (List Char × List Char)
  | [] => none
  | c :: cs =>
      if c = t then some ([], cs)
      else (breakOnChar t cs).map fun p => (c :: p.1, p.2)

/-- One global pass of `str.replace(/{([^}]*)}/g, '$1')` (qbt.js line 1344):
at each `{` with a later `}`, the braces are dropped and the text between
kept; scanning resumes after the `}`. Fuelled so that the recursion is
structural; `stripBraces` supplies adequate fuel. -/
def stripBracesF : Nat → List Char → List Char
  | 0, l => l
  | _ + 1, [] => []
  | f + 1, c :: cs =>
      if c = '\x7b' then
        match breakOnChar '\x7d' cs with
        | some (inner, rest) => inner ++ stripBracesF f rest
        | none => c :: stripBracesF f cs
      else c :: stripBracesF f cs

def stripBraces (l : List Char) : List Char := stripBracesF l.length l

/-- The trailing `,?` of the pair regex: one optional comma. -/
def dropComma (l : List Char) : List Char :=
  match l with
  | c :: r => if c = ',' then r else l
  | [] => []

/-- Match of `/"([^"]*)":"([^"]*)",?/` at the head of the list, returning
the two capture groups and the remainder after the match. Since `[^"]*`
cannot cross a quote, the regex engine deterministically takes the text up
to the next `"` for each group. -/
def matchPair : List Char → Option (List Char × List Char × List Char)
  | [] => none
  | c :: rest =>
      if c = '"' then
        match breakOnChar '"' rest with
        | some (k, ':' :: '"' :: rest2) =>
            match breakOnChar '"' rest2 with
            | some (v, rest3) => some (k, v, dropComma rest3)
            | none => none
        | _ => none
      else none

/-- One global pass of `str.replace(/"([^"]*)":"([^"]*)",?/g, '$1=$2&')`
(qbt.js line 1345): leftmost-first scanning, each match replaced by
`$1=$2&`. Fuelled for structural recursion; `pairSub` supplies the fuel. -/
def pairSubF : Nat → List Char → List Char
  | 0, l => l
  | _ + 1, [] => []
  | f + 1, c :: cs =>
      match matchPair (c :: cs) with
      | some (k, v, rest) => k ++ '=' :: (v ++ '&' :: pairSubF f rest)
      | none => c :: pairSubF f cs

def pairSub (l : List Char) : List Char := pairSubF l.length l

/-- The request-body encoder `plainify` (qbt.js lines 1342-1347):
`JSON.stringify` the parameter object, strip brace pairs, then rewrite
`"k":"v",?` matches to `k=v&`. -/
def plainifyChars (parameters : List (String × JSv)) : List Char :=
  pairSub (stripBraces (stringifyObj parameters))

def plainify (parameters : List (String × JSv)) : String :=
  String.mk (plainifyChars parameters)

/-! ### The builtin `encodeURI`

`setCategory`, `rename`, the tag/category helpers and `addTorrent` pass
selected string arguments through JavaScript's builtin `encodeURI`
(e.g. qbt.js line 1146). `encodeURI` leaves ASCII alphanumerics and
`; / ? : @ & = + $ , - _ . ! ~ * ' ( ) #` untouched and replaces every
other character by the uppercase percent-encoding of its UTF-8 bytes. -/

/-- UTF-8 encoding of one code point. -/
def utf8Bytes (c : Char) : List Nat :=
  if c.toNat < 0x80 then [c.toNat]
  else if c.toNat < 0x800 then [0xC0 + c.toNat / 0x40, 0x80 + c.toNat % 0x40]
  else if c.toNat < 0x10000 then
    [0xE0 + c.toNat / 0x1000, 0x80 + c.toNat / 0x40 % 0x40, 0x80 + c.toNat % 0x40]
  else
    [0xF0 + c.toNat / 0x40000, 0x80 + c.toNat / 0x1000 % 0x40,
     0x80 + c.toNat / 0x40 % 0x40, 0x80 + c.toNat % 0x40]

/-- The characters `encodeURI` leaves unescaped. -/
def uriUnescaped (c : Char) : Bool :=
  (65 ≤ c.toNat && c.toNat ≤ 90) || (97 ≤ c.toNat && c.toNat ≤ 122)
    || (48 ≤ c.toNat && c.toNat ≤ 57)
    || c ∈ [';', '/', '?', ':', '@', '&', '=', '+', '$', ',',
            '-', '_', '.', '!', '~', '*', '\x27', '(', ')', '#']

/-- Percent escape of one byte: `%XY` with uppercase hex digits. -/
def pctEscape (b : Nat) : List Char :=
  ['%', hexDigitUpper (b / 16), hexDigitUpper (b % 16)]

def encodeURIChar (c : Char) : List Char :=
  if uriUnescaped c then [c] else (utf8Bytes c).flatMap pctEscape

def encodeURI (s : String) : String :=
  String.mk (s.data.flatMap encodeURIChar)

/-! ### The remote service's form decoding

Modelled from the spec: the claims compare the encoded body against "the
remote service's own form-decoding", which lives in the remote qBittorrent
server, not in this repository. Following the spec's description of the
wire format (`application/x-www-form-urlencoded`), the decoder splits the
body on `&` ignoring empty segments, splits each segment at its first `=`
(a segment without `=` becomes a key with empty value), and percent-decodes
each side, with `+` meaning space, interpreting the bytes as UTF-8. -/

/-- Value of a hex digit character (either case). -/
def hexVal (c : Char) : Option Nat :=
  if 48 ≤ c.toNat ∧ c.toNat ≤ 57 then some (c.toNat - 48)
  else if 65 ≤ c.toNat ∧ c.toNat ≤ 70 then some (c.toNat - 55)
  else if 97 ≤ c.toNat ∧ c.toNat ≤ 102 then some (c.toNat - 87)
  else none

/-- Percent-decoding of a form-encoded token to raw bytes: `%XY` is a
byte, `+` is a space, any other character contributes its UTF-8 bytes. -/
def percentDecodeBytes : List Char → Option (List Nat)
  | [] => some []
  | c :: rest =>
      if c = '%' then
        match rest with
        | h1 :: h2 :: r =>
            match hexVal h1, hexVal h2 with
            | some a, some b => (percentDecodeBytes r).map fun bs => (16 * a + b) :: bs
            | _, _ => none
        | _ => none
      else if c = '+' then (percentDecodeBytes rest).map fun bs => 32 :: bs
      else (percentDecodeBytes rest).map fun bs => utf8Bytes c ++ bs

/-- Is `b` a UTF-8 continuation byte? -/
def contB (b : Nat) : Bool := 0x80 ≤ b && b < 0xC0

/-- Strict decoding of one UTF-8 sequence from a lead byte and the
remaining bytes, rejecting overlong forms, surrogates and out-of-range
code points. -/
def utf8Step (b0 : Nat) (rest : List Nat) : Option (Char × List Nat) :=
  if b0 < 0x80 then some (Char.ofNat b0, rest)
  else if b0 < 0xC2 then none
  else if b0 < 0xE0 then
    match rest with
    | b1 :: r =>
        if contB b1 then some (Char.ofNat ((b0 - 0xC0) * 0x40 + (b1 - 0x80)), r)
        else none
    | [] => none
  else if b0 < 0xF0 then
    match rest with
    | b1 :: b2 :: r =>
        if contB b1 && contB b2 then
          if (b0 - 0xE0) * 0x1000 + (b1 - 0x80) * 0x40 + (b2 - 0x80) < 0x800 then none
          else if 0xD800 ≤ (b0 - 0xE0) * 0x1000 + (b1 - 0x80) * 0x40 + (b2 - 0x80)
              ∧ (b0 - 0xE0) * 0x1000 + (b1 - 0x80) * 0x40 + (b2 - 0x80) ≤ 0xDFFF then none
          else some (Char.ofNat ((b0 - 0xE0) * 0x1000 + (b1 - 0x80) * 0x40 + (b2 - 0x80)), r)
        else none
    | _ => none
  else if b0 < 0xF5 then
    match rest with
    | b1 :: b2 :: b3 :: r =>
        if contB b1 && contB b2 && contB b3 then
          if (b0 - 0xF0) * 0x40000 + (b1 - 0x80) * 0x1000 + (b2 - 0x80) * 0x40
              + (b3 - 0x80) < 0x10000 then none
          else if 0x110000 ≤ (b0 - 0xF0) * 0x40000 + (b1 - 0x80) * 0x1000
              + (b2 - 0x80) * 0x40 + (b3 - 0x80) then none
          else some (Char.ofNat ((b0 - 0xF0) * 0x40000 + (b1 - 0x80) * 0x1000
              + (b2 - 0x80) * 0x40 + (b3 - 0x80)), r)
        else none
    | _ => none
  else none

/-- Strict UTF-8 decoding of a byte list, fuelled so that the recursion is
structural; `utf8DecodeList` supplies adequate fuel. -/
def utf8DecodeListF : Nat → List Nat → Option (List Char)
  | _, [] => some []
  | 0, _ :: _ => none
  | f + 1, b0 :: rest =>
      match utf8Step b0 rest with
      | some (c, r) => (utf8DecodeListF f r).map fun cs => c :: cs
      | none => none

def utf8DecodeList (l : List Nat) : Option (List Char) := utf8DecodeListF l.length l

/-- Decode one form token (key or value) to a string. -/
def formValueDecode (l : List Char) : Option String :=
  (percentDecodeBytes l).bind fun bs => (utf8DecodeList bs).map fun cs => String.mk cs

/-- Split on `&`, leftmost first; like JavaScript `"a&b".split('&')` the
result keeps empty segments (which `formDecode` then ignores). -/
def splitOnAmp : List Char → List (List Char)
  | [] => [[]]
  | c :: cs =>
      if c = '&' then [] :: splitOnAmp cs
      else
        match splitOnAmp cs with
        | s :: ss => (c :: s) :: ss
        | [] => [[c]]

/-- Split a segment at its first `=`; no `=` means no value part. -/
def splitFirstEq : List Char → List Char × Option (List Char)
  | [] => ([], none)
  | c :: cs =>
      if c = '=' then ([], some cs)
      else
        let p := splitFirstEq cs
        (c :: p.1, p.2)

def decodePiece (l : List Char) : Option (String × String) :=
  let p := splitFirstEq l
  match formValueDecode p.1, formValueDecode (p.2.getD []) with
  | some k, some v => some (k, v)
  | _, _ => none

/-- Modelled from the spec: the remote service's form decoder. -/
def formDecode (body : String) : Option (List (String × String)) :=
  List.mapM decodePiece ((splitOnAmp body.data).filter fun s => !s.isEmpty)

/-! ### The session client: `performRequest`, `connect`, capability methods -/

/-- JavaScript property access `x.f` on the values our call sites produce:
defined fields of the options object, `undefined` everywhere else (in
particular on strings, which is what the broken `rename` binding feeds
into `performRequest`). -/
def JSv.getField : JSv → String → JSv
  | .opts o, "hostname" => .str o.hostname
  | .opts o, "protocol" => .str o.protocol
  | .opts o, "port" => .num o.port
  | _, _ => .undefined

/-- JavaScript string coercion, as `+` concatenation applies it. -/
def jsToString : JSv → String
  | .undefined => "undefined"
  | .nullv => "null"
  | .str s => s
  | .num n => toString n
  | .bool b => if b then "true" else "false"
  | .opts _ => "[object Object]"

/-- JavaScript loose inequality `x != n` against a number literal, for the
values that reach the port comparison (a number from the options object,
or `undefined` via the broken `rename` binding, which compares true). -/
def jsNeqNum (x : JSv) (n : Int) : Bool :=
  match x with
  | .num m => m ≠ n
  | .bool b => (if b then (1 : Int) else 0) ≠ n
  | .str s => match s.toInt? with | some m => m ≠ n | none => true
  | _ => true

/-- The `Referer`/`Origin` header value (qbt.js lines 1304-1305):
`opt.protocol + '//' + opt.hostname + ((opt.port != 80 || opt.port != 443) ? ':' + opt.port : '')`.
The disjunctive condition is kept exactly as written in the source. -/
def originOf (opt : JSv) : String :=
  jsToString (opt.getField "protocol") ++ "//" ++ jsToString (opt.getField "hostname")
    ++ (if jsNeqNum (opt.getField "port") 80 ∨ jsNeqNum (opt.getField "port") 443 then
          ":" ++ jsToString (opt.getField "port")
        else "")

/-- Whether `protocol[options.protocol]` (qbt.js line 1313) is defined:
the module-level table has exactly the keys `'https:'` and `'http:'`. -/
def protocolKnown (p : JSv) : Bool :=
  jsToString p = "https:" || jsToString p = "http:"

def ENDPOINT : String := "/api/v2"

/-- The outgoing request as `performRequest` assembles it (qbt.js lines
1297-1310): connection fields, path, method, headers and body. -/
structure Request where
  hostname : JSv
  protocol : JSv
  port : JSv
  path : String
  method : String
  referer : String
  origin : String
  contentType : String
  contentLength : Nat
  cookie : JSv
  body : String
deriving DecidableEq, Repr

def buildRequest (opt cookie : JSv) (path : String) (body : String) : Request :=
  { hostname := opt.getField "hostname"
    protocol := opt.getField "protocol"
    port := opt.getField "port"
    path := ENDPOINT ++ path
    method := "POST"
    referer := originOf opt
    origin := originOf opt
    contentType := "application/x-www-form-urlencoded"
    contentLength := body.length
    cookie := cookie
    body := body }

/-- The transport's answer to one request: an HTTP response (status,
`Set-Cookie` header values if any, body text) or a transport-level error. -/
structure HttpResponse where
  statusCode : Nat
  setCookie : Option (List String)
  body : String
deriving DecidableEq, Repr

inductive TransportEvent where
  | response (r : HttpResponse)
  | error (message : String)
deriving DecidableEq, Repr

/-- A JavaScript `Error`: message and optional cause. The code under
verification always constructs errors with `new Error(message)`, which
attaches no cause. -/
inductive JsError where
  | mk (message : String) (cause : Option JsError)

def JsError.message : JsError → String
  | .mk m _ => m

def JsError.cause : JsError → Option JsError
  | .mk _ c => c

/-- How one transport round-trip settles the promise (qbt.js lines
1312-1334): HTTP 200 resolves with the body text and the first
`Set-Cookie` value (`null` when the header is absent, `undefined` when it
is an empty array); any other status rejects with
`new Error('HTTP request error: ' + statusCode)`; a transport error
rejects with that error unmodified. -/
def settle (ev : TransportEvent) : Except JsError (String × JSv) :=
  match ev with
  | .error m => .error (.mk m none)
  | .response r =>
      if r.statusCode = 200 then
        .ok (r.body,
          match r.setCookie with
          | some cs => match cs.head? with | some c => .str c | none => .undefined
          | none => .nullv)
      else .error (.mk ("HTTP request error: " ++ toString r.statusCode) none)

/-- The single dispatch point `performRequest(opt, cookie, path, parameters)`
(qbt.js lines 1294-1335). Returns the settled promise value together with
the list of HTTP requests actually handed to the transport, so that
request counts are observable. The body is `plainify(parameters)`; on a
defined protocol exactly one request goes out and settles per `settle`;
an undefined protocol key makes `protocol[options.protocol].request`
throw inside the promise executor before any request is issued. -/
def performRequest (opt cookie : JSv) (path : String) (parameters : List (String × JSv))
    (transport : Request → TransportEvent) :
    Except JsError (String × JSv) × List Request :=
  let data := plainify parameters
  let req := buildRequest opt cookie path data
  if protocolKnown (opt.getField "protocol") then (settle (transport req), [req])
  else (.error (.mk "TypeError: protocol[options.protocol] is undefined" none), [])

/-- The capability handle returned by `connect`: the closures capture the
resolved options and the session cookie (qbt.js lines 11-21). -/
structure Handle where
  options : ConnOptions
  cookie : JSv
deriving DecidableEq, Repr

/-- Outcome of `connect`: the settled result, the requests issued, and the
errors passed to `console.error` by the catch handler. -/
structure ConnectOutcome where
  result : Except JsError Handle
  requests : List Request
  logged : List JsError

/-- Fields of the `URL` object that `connect` reads (qbt.js lines 12-16);
`port` is the string `URL.port`, empty when the URL carries none. -/
structure URLParts where
  hostname : String
  protocol : String
  port : String

/-- Leading-digits `parseInt` on a `URL.port` string (`none` for NaN). -/
def parsedPort (s : String) : Option Nat :=
  let ds := s.data.takeWhile fun c => 48 ≤ c.toNat ∧ c.toNat ≤ 57
  if ds.isEmpty then none
  else some (ds.foldl (fun a c => 10 * a + (c.toNat - 48)) 0)

/-- Option resolution in `connect` (qbt.js lines 13-17):
`parseInt(hostname.port) || (hostname.protocol == 'https:' ? 443 : 80)`;
both NaN and an explicit `0` are falsy and fall back to the default. -/
def resolveOptions (u : URLParts) : ConnOptions :=
  { hostname := u.hostname
    protocol := u.protocol
    port :=
      match parsedPort u.port with
      | some p => if p = 0 then (if u.protocol = "https:" then 443 else 80) else p
      | none => if u.protocol = "https:" then 443 else 80 }

/-- The `connect` flow over already-resolved options (qbt.js lines 19-21
and 884-887): log in with `username`/`password` as form parameters and no
cookie; on success capture the first `Set-Cookie` value in the handle; on
any failure, `console.error(err)` and throw
`new Error('Login failed with username: ' + username)` — a fresh error
with no cause attached. -/
def connectR (opt : ConnOptions) (username password : String)
    (transport : Request → TransportEvent) : ConnectOutcome :=
  match performRequest (.opts opt) .nullv "/auth/login"
      [("username", .str username), ("password", .str password)] transport with
  | (.ok (_, cookie), reqs) => ⟨.ok ⟨opt, cookie⟩, reqs, []⟩
  | (.error e, reqs) =>
      ⟨.error (.mk ("Login failed with username: " ++ username) none), reqs, [e]⟩

/-- Every capability binding on the handle delegates to its implementation
with the captured options and cookie, and every implementation calls
`performRequest(options, cookie, fixedPath, parameters)`; this is that
common shape. -/
def handleCall (h : Handle) (path : String) (parameters : List (String × JSv))
    (transport : Request → TransportEvent) :
    Except JsError (String × JSv) × List Request :=
  performRequest (.opts h.options) h.cookie path parameters transport

/-! ### Parameter mappings of the capability methods the claims name -/

/-- JavaScript truthiness of the values that reach `if (x)` guards. -/
def truthy : JSv → Bool
  | .undefined => false
  | .nullv => false
  | .str s => s ≠ ""
  | .num n => n ≠ 0
  | .bool b => b
  | .opts _ => true

/-- Parameter mapping of `torrents` (qbt.js lines 991-999): each of the
seven optional parameters is added only when truthy, in source order. -/
def torrentsParams (filter category sort reverse limit offset hashes : JSv) :
    List (String × JSv) :=
  [("filter", filter), ("category", category), ("sort", sort), ("reverse", reverse),
   ("limit", limit), ("offset", offset), ("hashes", hashes)].filter
    fun kv => truthy kv.2

/-- Parameter mapping of `log` (qbt.js line 926): all five parameters are
always included, with no truthiness guard. -/
def logParams (normal info warning critical lastKnownId : JSv) : List (String × JSv) :=
  [("normal", normal), ("info", info), ("warning", warning), ("critical", critical),
   ("last_known_id", lastKnownId)]

/-- Parameter mapping of `setCategory` (qbt.js line 1146):
`{ hash: hash, category: encodeURI(category) }`. -/
def setCategoryParams (hash category : String) : List (String × JSv) :=
  [("hash", .str hash), ("category", .str (encodeURI category))]

/-- Implementation `setCategory(options, cookie, hash, category)`
(qbt.js lines 1145-1148). -/
def setCategoryCall (options cookie : JSv) (hash category : String)
    (transport : Request → TransportEvent) :=
  performRequest options cookie "/torrents/setCategory"
    (setCategoryParams hash category) transport

/-- Handle binding for `setCategory` (qbt.js lines 646-648). -/
def Handle.setCategory (h : Handle) (hashes category : String)
    (transport : Request → TransportEvent) :=
  setCategoryCall (.opts h.options) h.cookie hashes category transport

/-- Implementation `appVersion(options, cookie)` (qbt.js lines 892-895). -/
def appVersionCall (options cookie : JSv) (transport : Request → TransportEvent) :=
  performRequest options cookie "/app/version" [] transport

/-- Handle binding for `appVersion` (qbt.js lines 26-28). -/
def Handle.appVersion (h : Handle) (transport : Request → TransportEvent) :=
  appVersionCall (.opts h.options) h.cookie transport

/-- Implementation `rename(options, cookie, hash, name)` (qbt.js lines
1140-1143). -/
def renameCall (options cookie hash name : JSv) (transport : Request → TransportEvent) :=
  performRequest options cookie "/torrents/rename"
    [("hash", hash), ("name", .str (encodeURI (jsToString name)))] transport

/-- Handle binding for `rename` (qbt.js lines 638-640): the source calls
`rename(hash, name)` with only two arguments, so the implementation
receives the torrent hash as `options`, the new name as `cookie`, and
`undefined` for its own `hash` and `name` parameters. -/
def Handle.rename (h : Handle) (hash name : JSv)
    (transport : Request → TransportEvent) :=
  renameCall hash name .undefined .undefined transport

/-- Identifier lookup in a lexical scope, for the free identifier the tag
helpers reference. -/
def lookupId (scope : List (String × JSv)) (x : String) : Option JSv :=
  (scope.find? fun kv => kv.1 = x).map fun kv => kv.2

/-- Implementation `addTags(options, cookie, hashes, tags)` (qbt.js lines
1170-1173): the parameter object is `{ hashes: hashed, tags: encodeURI(tags) }`,
and `hashed` is not any identifier in scope (the parameter is named
`hashes`), so evaluating the object literal throws a `ReferenceError`
before `performRequest` is reached. -/
def addTagsCall (options cookie hashes tags : JSv)
    (transport : Request → TransportEvent) :
    Except JsError (String × JSv) × List Request :=
  match lookupId [("options", options), ("cookie", cookie),
      ("hashes", hashes), ("tags", tags)] "hashed" with
  | some hv =>
      performRequest options cookie "/torrents/addTags"
        [("hashes", hv), ("tags", .str (encodeURI (jsToString tags)))] transport
  | none => (.error (.mk "ReferenceError: hashed is not defined" none), [])

/-- Handle binding for `addTags` (qbt.js lines 684-686). -/
def Handle.addTags (h : Handle) (hashes tags : JSv)
    (transport : Request → TransportEvent) :=
  addTagsCall (.opts h.options) h.cookie hashes tags transport

/-- Implementation `removeTags(options, cookie, hashes, tags)` (qbt.js
lines 1175-1178): same undefined `hashed` identifier as `addTags`. -/
def removeTagsCall (options cookie hashes tags : JSv)
    (transport : Request → TransportEvent) :
    Except JsError (String × JSv) × List Request :=
  match lookupId [("options", options), ("cookie", cookie),
      ("hashes", hashes), ("tags", tags)] "hashed" with
  | some hv =>
      performRequest options cookie "/torrents/removeTags"
        [("hashes", hv), ("tags", .str (encodeURI (jsToString tags)))] transport
  | none => (.error (.mk "ReferenceError: hashed is not defined" none), [])

/-- Handle binding for `removeTags` (qbt.js lines 692-694). -/
def Handle.removeTags (h : Handle) (hashes tags : JSv)
    (transport : Request → TransportEvent) :=
  removeTagsCall (.opts h.options) h.cookie hashes tags transport

/-- Implementation `setShareLimit(options, cookie, hashes, ratioLimit,
seedingTimeLimit)` (qbt.js lines 1120-1123). -/
def setShareLimitCall (options cookie hashes ratioLimit seedingTimeLimit : JSv)
    (transport : Request → TransportEvent) :=
  performRequest options cookie "/torrents/setShareLimits"
    [("hashes", hashes), ("ratioLimit", ratioLimit),
     ("seedingTimeLimit", seedingTimeLimit)] transport

/-- Handle binding for `setShareLimit` (qbt.js lines 607-609): the source
calls `setShareLimit(options, cookie, ratioLimit, seedingTimeLimit)` —
four arguments for a five-parameter function — so the implementation's
`hashes` receives the caller's `ratioLimit`, its `ratioLimit` receives the
caller's `seedingTimeLimit`, and its `seedingTimeLimit` is `undefined`;
the caller's `hashes` is dropped. -/
def Handle.setShareLimit (h : Handle) (hashes ratioLimit seedingTimeLimit : JSv)
    (transport : Request → TransportEvent) :=
  setShareLimitCall (.opts h.options) h.cookie ratioLimit seedingTimeLimit
    .undefined transport

/-! ### Characterisation of `plainify` on well-behaved string mappings -/

/-- Characters that survive the `plainify` pipeline structurally intact:
printable, not `"` or `\` (which `JSON.stringify` would escape), and not a
brace (which the first replace pass would consume). -/
def plainChar (c : Char) : Bool :=
  32 ≤ c.toNat && c.toNat ≠ 34 && c.toNat ≠ 92 && c.toNat ≠ 123 && c.toNat ≠ 125

def plainStr (s : String) : Bool := s.data.all plainChar

/-- Characters that additionally survive the remote form decoding:
ASCII-printable and none of `&`, `%`, `+`, `=`. -/
def formChar (c : Char) : Bool :=
  plainChar c && c.toNat ≠ 38 && c.toNat ≠ 37 && c.toNat ≠ 43 && c.toNat ≠ 61

def formStr (s : String) : Bool := s.data.all formChar

theorem breakOnChar_some (t : Char) :
    ∀ (l a b : List Char), breakOnChar t l = some (a, b) → l = a ++ t :: b := by
  intro l
  induction l with
  | nil => intro a b h; simp [breakOnChar] at h
  | cons c cs ih =>
      intro a b h
      by_cases hc : c = t
      · subst hc
        simp only [breakOnChar, eq_self_iff_true, if_true,
          Option.some.injEq, Prod.mk.injEq] at h
        obtain ⟨h1, h2⟩ := h
        subst h1; subst h2
        rfl
      · simp only [breakOnChar, if_neg hc] at h
        rcases hmap : breakOnChar t cs with _ | ⟨p1, p2⟩
        · rw [hmap] at h; simp at h
        · rw [hmap] at h
          simp only [Option.map_some', Option.some.injEq, Prod.mk.injEq] at h
          obtain ⟨h1, h2⟩ := h
          subst h1; subst h2
          rw [List.cons_append, ih p1 p2 hmap]

theorem breakOnChar_append (t : Char) :
    ∀ (a b : List Char), t ∉ a → breakOnChar t (a ++ t :: b) = some (a, b) := by
  intro a
  induction a with
  | nil => intro b _; simp [breakOnChar]
  | cons c cs ih =>
      intro b hna
      have hc : c ≠ t := fun h => hna (by simp [h])
      have hm : t ∉ cs := fun h => hna (List.mem_cons_of_mem c h)
      simp [breakOnChar, hc, ih b hm]

theorem breakOnChar_length (t : Char) (l a b : List Char)
    (h : breakOnChar t l = some (a, b)) : a.length + b.length + 1 = l.length := by
  have hl := breakOnChar_some t l a b h
  subst hl
  simp only [List.length_append, List.length_cons]
  omega

theorem stripBracesF_nil : ∀ f, stripBracesF f [] = [] := by
  intro f; cases f <;> rfl

theorem stripBracesF_congr : ∀ (f g : Nat) (l : List Char),
    l.length ≤ f → l.length ≤ g → stripBracesF f l = stripBracesF g l := by
  intro f
  induction f with
  | zero =>
      intro g l hf _
      have : l = [] := List.length_eq_zero.mp (Nat.le_zero.mp hf)
      subst this; rw [stripBracesF_nil, stripBracesF_nil]
  | succ f ih =>
      intro g l hf hg
      cases l with
      | nil => rw [stripBracesF_nil, stripBracesF_nil]
      | cons c cs =>
          cases g with
          | zero => simp at hg
          | succ g =>
              simp only [List.length_cons] at hf hg
              simp only [stripBracesF]
              by_cases hc : c = '\x7b'
              · rw [if_pos hc, if_pos hc]
                rcases hb : breakOnChar '\x7d' cs with _ | ⟨inner, rest⟩
                · exact congrArg (List.cons c) (ih g cs (by omega) (by omega))
                · have hlen := breakOnChar_length _ _ _ _ hb
                  exact congrArg (inner ++ ·) (ih g rest (by omega) (by omega))
              · rw [if_neg hc, if_neg hc]
                exact congrArg (List.cons c) (ih g cs (by omega) (by omega))

theorem stripBraces_nil : stripBraces [] = [] := rfl

theorem stripBraces_cons_brace (cs inner rest : List Char)
    (h : breakOnChar '\x7d' cs = some (inner, rest)) :
    stripBraces ('\x7b' :: cs) = inner ++ stripBraces rest := by
  show stripBracesF (cs.length + 1) ('\x7b' :: cs) = _
  have hlen := breakOnChar_length _ _ _ _ h
  simp only [stripBracesF, eq_self_iff_true, if_true, h]
  exact congrArg (inner ++ ·)
    (stripBracesF_congr cs.length rest.length rest (by omega) (Nat.le_refl _))

theorem stripBraces_wrap (inner : List Char) (h : '\x7d' ∉ inner) :
    stripBraces ('\x7b' :: (inner ++ ['\x7d'])) = inner := by
  have hb : breakOnChar '\x7d' (inner ++ ['\x7d']) = some (inner, []) :=
    breakOnChar_append '\x7d' inner [] h
  rw [stripBraces_cons_brace _ _ _ hb, stripBraces_nil, List.append_nil]

theorem dropComma_length (l : List Char) : (dropComma l).length ≤ l.length := by
  cases l with
  | nil => simp [dropComma]
  | cons c r => by_cases hc : c = ',' <;> simp [dropComma, hc]

theorem matchPair_length : ∀ (l k v rest : List Char),
    matchPair l = some (k, v, rest) → rest.length < l.length := by
  intro l k v rest h
  unfold matchPair at h
  split at h
  · exact absurd h (by simp)
  split at h
  case isFalse => exact absurd h (by simp)
  split at h
  case h_2 => exact absurd h (by simp)
  case h_1 k1 rest2 heq =>
    split at h
    case h_2 => exact absurd h (by simp)
    case h_1 v1 rest3 heq2 =>
      simp only [Option.some.injEq, Prod.mk.injEq] at h
      obtain ⟨hk, hv, hr⟩ := h
      have hl1 := breakOnChar_length _ _ _ _ heq
      have hl2 := breakOnChar_length _ _ _ _ heq2
      have hl3 : rest.length ≤ rest3.length := by
        rw [← hr]; exact dropComma_length _
      simp only [List.length_cons] at hl1 ⊢
      omega

theorem pairSubF_nil : ∀ f, pairSubF f [] = [] := by
  intro f; cases f <;> rfl

theorem pairSubF_congr : ∀ (f g : Nat) (l : List Char),
    l.length ≤ f → l.length ≤ g → pairSubF f l = pairSubF g l := by
  intro f
  induction f with
  | zero =>
      intro g l hf _
      have : l = [] := List.length_eq_zero.mp (Nat.le_zero.mp hf)
      subst this; rw [pairSubF_nil, pairSubF_nil]
  | succ f ih =>
      intro g l hf hg
      cases l with
      | nil => rw [pairSubF_nil, pairSubF_nil]
      | cons c cs =>
          cases g with
          | zero => simp at hg
          | succ g =>
              simp only [List.length_cons] at hf hg
              simp only [pairSubF]
              rcases hm : matchPair (c :: cs) with _ | ⟨k, v, rest⟩
              · exact congrArg (List.cons c) (ih g cs (by omega) (by omega))
              · have hlen := matchPair_length _ _ _ _ hm
                simp only [List.length_cons] at hlen
                exact congrArg (fun x => k ++ '=' :: (v ++ '&' :: x))
                  (ih g rest (by omega) (by omega))

theorem pairSub_nil : pairSub [] = [] := rfl

theorem pairSub_eq_match (l k v rest : List Char) (h : matchPair l = some (k, v, rest)) :
    pairSub l = k ++ '=' :: (v ++ '&' :: pairSub rest) := by
  cases l with
  | nil => simp [matchPair] at h
  | cons c cs =>
      show pairSubF (cs.length + 1) (c :: cs) = _
      have hlen := matchPair_length _ _ _ _ h
      simp only [List.length_cons] at hlen
      simp only [pairSubF, h]
      exact congrArg (fun x => k ++ '=' :: (v ++ '&' :: x))
        (pairSubF_congr cs.length rest.length rest (by omega) (Nat.le_refl _))

theorem pairSub_eq_nomatch (c : Char) (cs : List Char)
    (h : matchPair (c :: cs) = none) : pairSub (c :: cs) = c :: pairSub cs := by
  show pairSubF (cs.length + 1) (c :: cs) = _
  simp only [pairSubF, h]
  rfl

theorem plainChar_facts (c : Char) (h : plainChar c = true) :
    32 ≤ c.toNat ∧ c ≠ '"' ∧ c ≠ '\\' ∧ c ≠ '\x7b' ∧ c ≠ '\x7d' := by
  simp only [plainChar, Bool.and_eq_true, decide_eq_true_eq] at h
  obtain ⟨⟨⟨⟨h32, h34⟩, h92⟩, h123⟩, h125⟩ := h
  refine ⟨h32, ?_, ?_, ?_, ?_⟩ <;> intro hc <;> subst hc
  · exact h34 rfl
  · exact h92 rfl
  · exact h123 rfl
  · exact h125 rfl

theorem jsonEscapeChar_plain (c : Char) (h : plainChar c = true) :
    jsonEscapeChar c = [c] := by
  obtain ⟨h32, h34, h92, _, _⟩ := plainChar_facts c h
  unfold jsonEscapeChar
  rw [if_neg h34, if_neg h92,
      if_neg (by intro hc; subst hc; exact absurd h32 (by decide)),
      if_neg (by intro hc; subst hc; exact absurd h32 (by decide)),
      if_neg (by intro hc; subst hc; exact absurd h32 (by decide)),
      if_neg (by intro hc; subst hc; exact absurd h32 (by decide)),
      if_neg (by intro hc; subst hc; exact absurd h32 (by decide)),
      if_neg (by omega)]

theorem flatMap_jsonEscape_plain :
    ∀ (l : List Char), l.all plainChar = true → l.flatMap jsonEscapeChar = l := by
  intro l
  induction l with
  | nil => intro _; rfl
  | cons c cs ih =>
      intro h
      simp only [List.all_cons, Bool.and_eq_true] at h
      simp only [List.flatMap_cons, jsonEscapeChar_plain c h.1, ih h.2,
        List.singleton_append]

/-- The characters a well-behaved pair contributes to the intermediate
form after brace-stripping: `"k":"v"`. -/
def renderPair (k v : String) : List Char :=
  '"' :: (k.data ++ '"' :: ':' :: '"' :: (v.data ++ ['"']))

/-- The intended form body: each entry as `name=value` followed by `&`. -/
def formJoin : List (String × String) → List Char
  | [] => []
  | kv :: rest => kv.1.data ++ '=' :: (kv.2.data ++ '&' :: formJoin rest)

theorem jsonQuoteChars_plain (s : String) (h : plainStr s = true) :
    jsonQuoteChars s = '"' :: (s.data ++ ['"']) := by
  unfold jsonQuoteChars
  rw [flatMap_jsonEscape_plain s.data h, List.cons_append]

theorem matchPair_renderPair (k v : String) (tail : List Char)
    (hk : '"' ∉ k.data) (hv : '"' ∉ v.data) :
    matchPair (renderPair k v ++ tail) = some (k.data, v.data, dropComma tail) := by
  have hshape : renderPair k v ++ tail
      = '"' :: (k.data ++ '"' :: (':' :: '"' :: (v.data ++ '"' :: tail))) := by
    simp [renderPair]
  rw [hshape]
  show (if ('"' : Char) = '"' then _ else none) = _
  rw [if_pos rfl]
  rw [breakOnChar_append '"' k.data (':' :: '"' :: (v.data ++ '"' :: tail)) hk]
  show (match breakOnChar '"' (v.data ++ '"' :: tail) with
    | some (v1, rest3) => some (k.data, v1, dropComma rest3)
    | none => none) = _
  rw [breakOnChar_append '"' v.data tail hv]

theorem pairSub_joinComma :
    ∀ (l : List (String × String)),
      (∀ kv ∈ l, plainStr kv.1 = true ∧ plainStr kv.2 = true) →
      pairSub (joinComma (l.map fun kv => renderPair kv.1 kv.2)) = formJoin l := by
  intro l
  induction l with
  | nil => intro _; simp [joinComma, formJoin, pairSub_nil]
  | cons kv rest ih =>
      intro h
      have hkv := h kv (by simp)
      have hk : '"' ∉ kv.1.data := by
        intro hm
        have := List.all_eq_true.mp hkv.1 _ hm
        exact absurd rfl (plainChar_facts _ this).2.1
      have hv : '"' ∉ kv.2.data := by
        intro hm
        have := List.all_eq_true.mp hkv.2 _ hm
        exact absurd rfl (plainChar_facts _ this).2.1
      rcases rest with _ | ⟨kv2, rest2⟩
      · simp only [List.map_cons, List.map_nil, joinComma]
        have hm : matchPair (renderPair kv.1 kv.2)
            = some (kv.1.data, kv.2.data, []) := by
          have := matchPair_renderPair kv.1 kv.2 [] hk hv
          rw [List.append_nil] at this
          exact this
        rw [pairSub_eq_match _ _ _ _ hm, pairSub_nil]
        rfl
      · simp only [List.map_cons]
        rw [show joinComma (renderPair kv.1 kv.2
              :: (renderPair kv2.1 kv2.2 :: (rest2.map fun p => renderPair p.1 p.2)))
            = renderPair kv.1 kv.2 ++ ',' :: joinComma
              (renderPair kv2.1 kv2.2 :: (rest2.map fun p => renderPair p.1 p.2))
          from rfl]
        have hm := matchPair_renderPair kv.1 kv.2
          (',' :: joinComma (renderPair kv2.1 kv2.2
            :: (rest2.map fun p => renderPair p.1 p.2))) hk hv
        rw [pairSub_eq_match _ _ _ _ hm]
        have ih2 := ih fun p hp => h p (List.mem_cons_of_mem kv hp)
        simp only [List.map_cons] at ih2
        rw [show dropComma (',' :: joinComma (renderPair kv2.1 kv2.2
              :: (rest2.map fun p => renderPair p.1 p.2)))
            = joinComma (renderPair kv2.1 kv2.2
              :: (rest2.map fun p => renderPair p.1 p.2)) from rfl]
        rw [ih2]
        rfl

theorem filterMap_strings :
    ∀ (l : List (String × String)),
      (∀ kv ∈ l, plainStr kv.1 = true ∧ plainStr kv.2 = true) →
      ((l.map fun kv => (kv.1, JSv.str kv.2)).filterMap fun kv =>
          (jsonRender kv.2).map fun r => jsonQuoteChars kv.1 ++ ':' :: r)
        = l.map fun kv => renderPair kv.1 kv.2 := by
  intro l
  induction l with
  | nil => intro _; rfl
  | cons kv rest ih =>
      intro h
      have hkv := h kv (by simp)
      have hjr : jsonRender (JSv.str kv.2) = some (jsonQuoteChars kv.2) := rfl
      simp only [List.map_cons, List.filterMap_cons, hjr, Option.map_some']
      rw [ih fun p hp => h p (List.mem_cons_of_mem kv hp)]
      congr 1
      rw [jsonQuoteChars_plain _ hkv.1, jsonQuoteChars_plain _ hkv.2]
      simp [renderPair]

theorem mem_joinComma (c : Char) :
    ∀ (L : List (List Char)), c ∈ joinComma L → c = ',' ∨ ∃ x ∈ L, c ∈ x := by
  intro L
  induction L with
  | nil => intro h; simp [joinComma] at h
  | cons x xs ih =>
      rcases xs with _ | ⟨y, ys⟩
      · intro h
        right
        exact ⟨x, by simp, by simpa [joinComma] using h⟩
      · intro h
        simp only [joinComma] at h
        rcases List.mem_append.mp h with h1 | h1
        · right; exact ⟨x, by simp, h1⟩
        · rcases List.mem_cons.mp h1 with h2 | h2
          · left; exact h2
          · rcases ih h2 with h3 | ⟨z, hz, hcz⟩
            · left; exact h3
            · right; exact ⟨z, List.mem_cons_of_mem x hz, hcz⟩

theorem mem_renderPair (c : Char) (k v : String) (h : c ∈ renderPair k v) :
    c = '"' ∨ c = ':' ∨ c ∈ k.data ∨ c ∈ v.data := by
  simp only [renderPair, List.mem_cons, List.mem_append] at h
  tauto

/-- Main characterisation: on a mapping whose values are all strings made
of `plainChar`s, `plainify` yields exactly `k=v&` for each entry, in
order. -/
theorem plainify_strings (l : List (String × String))
    (h : ∀ kv ∈ l, plainStr kv.1 = true ∧ plainStr kv.2 = true) :
    plainifyChars (l.map fun kv => (kv.1, JSv.str kv.2)) = formJoin l := by
  unfold plainifyChars stringifyObj
  rw [filterMap_strings l h]
  have h7d : '\x7d' ∉ joinComma (l.map fun kv => renderPair kv.1 kv.2) := by
    intro hm
    rcases mem_joinComma _ _ hm with hc | ⟨x, hx, hcx⟩
    · exact absurd hc (by decide)
    · rcases List.mem_map.mp hx with ⟨kv, hkv, hren⟩
      have hp := h kv hkv
      rcases mem_renderPair _ _ _ (hren ▸ hcx) with hc | hc | hc | hc
      · exact absurd hc (by decide)
      · exact absurd hc (by decide)
      · exact absurd rfl (plainChar_facts _ (List.all_eq_true.mp hp.1 _ hc)).2.2.2.2
      · exact absurd rfl (plainChar_facts _ (List.all_eq_true.mp hp.2 _ hc)).2.2.2.2
  rw [List.cons_append, stripBraces_wrap _ h7d]
  exact pairSub_joinComma l h

/-! ### Round-trip lemmas for percent- and UTF-8 decoding -/

theorem char_valid_nat (c : Char) :
    c.toNat < 0xD800 ∨ (0xDFFF < c.toNat ∧ c.toNat < 0x110000) := by
  have h := c.valid
  unfold UInt32.isValidChar at h
  unfold Nat.isValidChar at h
  exact h

theorem utf8Bytes_lt (c : Char) : ∀ b ∈ utf8Bytes c, b < 256 := by
  intro b hb
  have hv := char_valid_nat c
  unfold utf8Bytes at hb
  by_cases h1 : c.toNat < 0x80
  · rw [if_pos h1] at hb
    simp at hb
    omega
  · rw [if_neg h1] at hb
    by_cases h2 : c.toNat < 0x800
    · rw [if_pos h2] at hb
      simp at hb
      rcases hb with hb | hb <;> omega
    · rw [if_neg h2] at hb
      by_cases h3 : c.toNat < 0x10000
      · rw [if_pos h3] at hb
        simp at hb
        rcases hb with hb | hb | hb <;> omega
      · rw [if_neg h3] at hb
        simp at hb
        rcases hb with hb | hb | hb | hb <;> omega

theorem hexVal_hexDigitUpper : ∀ n, n < 16 → hexVal (hexDigitUpper n) = some n := by
  decide

theorem percentDecodeBytes_pct (b : Nat) (hb : b < 256) (rest : List Char) :
    percentDecodeBytes (pctEscape b ++ rest)
      = (percentDecodeBytes rest).map fun bs => b :: bs := by
  show (match hexVal (hexDigitUpper (b / 16)), hexVal (hexDigitUpper (b % 16)) with
    | some a, some b2 => Option.map (fun bs => (16 * a + b2) :: bs) (percentDecodeBytes rest)
    | _, _ => none) = _
  rw [hexVal_hexDigitUpper (b / 16) (by omega), hexVal_hexDigitUpper (b % 16) (by omega)]
  show Option.map (fun bs => (16 * (b / 16) + b % 16) :: bs) (percentDecodeBytes rest) = _
  rw [show 16 * (b / 16) + b % 16 = b from by omega]

theorem percentDecodeBytes_flatpct (bs : List Nat) (h : ∀ b ∈ bs, b < 256)
    (rest : List Char) :
    percentDecodeBytes (bs.flatMap pctEscape ++ rest)
      = (percentDecodeBytes rest).map fun tl => bs ++ tl := by
  induction bs with
  | nil =>
      simp only [List.flatMap_nil, List.nil_append]
      cases percentDecodeBytes rest <;> simp
  | cons b bs2 ih =>
      simp only [List.flatMap_cons, List.append_assoc]
      rw [percentDecodeBytes_pct b (h b (by simp)) _]
      rw [ih fun x hx => h x (List.mem_cons_of_mem b hx)]
      cases percentDecodeBytes rest <;> simp

theorem percentDecodeBytes_plainchar (c : Char) (hpct : c ≠ '%') (hplus : c ≠ '+')
    (rest : List Char) :
    percentDecodeBytes (c :: rest)
      = (percentDecodeBytes rest).map fun bs => utf8Bytes c ++ bs := by
  conv_lhs => unfold percentDecodeBytes
  rw [if_neg hpct, if_neg hplus]

theorem percentDecodeBytes_encodeURI :
    ∀ (l : List Char), '+' ∉ l →
      percentDecodeBytes (l.flatMap encodeURIChar) = some (l.flatMap utf8Bytes) := by
  intro l
  induction l with
  | nil => intro _; rfl
  | cons c cs ih =>
      intro h
      have hplus : c ≠ '+' := fun hc => h (by simp [hc])
      have hrest := ih fun hm => h (List.mem_cons_of_mem c hm)
      simp only [List.flatMap_cons]
      rw [show encodeURIChar c
          = if uriUnescaped c then [c] else (utf8Bytes c).flatMap pctEscape from rfl]
      by_cases hu : uriUnescaped c
      · rw [if_pos hu]
        have hpct : c ≠ '%' := by
          intro hc
          rw [hc] at hu
          exact absurd hu (by decide)
        rw [List.singleton_append, percentDecodeBytes_plainchar c hpct hplus _, hrest]
        rfl
      · rw [if_neg hu]
        rw [percentDecodeBytes_flatpct (utf8Bytes c) (utf8Bytes_lt c) _, hrest]
        rfl

theorem percentDecodeBytes_plain :
    ∀ (l : List Char), (∀ c ∈ l, c ≠ '%' ∧ c ≠ '+') →
      percentDecodeBytes l = some (l.flatMap utf8Bytes) := by
  intro l
  induction l with
  | nil => intro _; rfl
  | cons c cs ih =>
      intro h
      have hc := h c (by simp)
      rw [percentDecodeBytes_plainchar c hc.1 hc.2 _,
        ih fun x hx => h x (List.mem_cons_of_mem c hx)]
      rfl

theorem utf8Step_length (b0 : Nat) (rest : List Nat) (c : Char) (r : List Nat)
    (h : utf8Step b0 rest = some (c, r)) : r.length ≤ rest.length := by
  unfold utf8Step at h
  split at h
  · simp only [Option.some.injEq, Prod.mk.injEq] at h
    rw [← h.2]
  · split at h
    · exact absurd h (by simp)
    · split at h
      · split at h
        · split at h
          · simp only [Option.some.injEq, Prod.mk.injEq] at h
            rw [← h.2]
            simp_all
          · exact absurd h (by simp)
        · exact absurd h (by simp)
      · split at h
        · split at h
          · split at h
            · split at h
              · exact absurd h (by simp)
              · split at h
                · exact absurd h (by simp)
                · simp only [Option.some.injEq, Prod.mk.injEq] at h
                  rw [← h.2]
                  simp_all
                  omega
            · exact absurd h (by simp)
          · exact absurd h (by simp)
        · split at h
          · split at h
            · split at h
              · split at h
                · exact absurd h (by simp)
                · split at h
                  · exact absurd h (by simp)
                  · simp only [Option.some.injEq, Prod.mk.injEq] at h
                    rw [← h.2]
                    simp_all
                    omega
              · exact absurd h (by simp)
            · exact absurd h (by simp)
          · exact absurd h (by simp)

theorem utf8DecodeListF_congr : ∀ (f g : Nat) (l : List Nat),
    l.length ≤ f → l.length ≤ g → utf8DecodeListF f l = utf8DecodeListF g l := by
  intro f
  induction f with
  | zero =>
      intro g l hf _
      have : l = [] := List.length_eq_zero.mp (Nat.le_zero.mp hf)
      subst this
      cases g <;> rfl
  | succ f ih =>
      intro g l hf hg
      cases l with
      | nil => cases g <;> rfl
      | cons b0 rest =>
          cases g with
          | zero => simp at hg
          | succ g =>
              simp only [List.length_cons] at hf hg
              simp only [utf8DecodeListF]
              rcases hs : utf8Step b0 rest with _ | ⟨c, r⟩
              · rfl
              · have := utf8Step_length b0 rest c r hs
                exact congrArg (Option.map fun cs => c :: cs) (ih g r (by omega) (by omega))

theorem utf8DecodeList_cons (b0 : Nat) (rest : List Nat) (c : Char) (r : List Nat)
    (h : utf8Step b0 rest = some (c, r)) :
    utf8DecodeList (b0 :: rest) = (utf8DecodeList r).map fun cs => c :: cs := by
  show utf8DecodeListF (rest.length + 1) (b0 :: rest) = _
  have hlen := utf8Step_length b0 rest c r h
  simp only [utf8DecodeListF, h]
  rw [utf8DecodeListF_congr rest.length r.length r (by omega) (Nat.le_refl _)]
  rfl

theorem utf8Step_enc_a (c : Char) (rest : List Nat) (h1 : c.toNat < 0x80) :
    utf8Step c.toNat rest = some (c, rest) := by
  unfold utf8Step
  rw [if_pos h1, Char.ofNat_toNat]

theorem utf8Step_enc_b (c : Char) (rest : List Nat)
    (h1 : ¬ c.toNat < 0x80) (h2 : c.toNat < 0x800) :
    utf8Step (0xC0 + c.toNat / 0x40) ((0x80 + c.toNat % 0x40) :: rest)
      = some (c, rest) := by
  conv_lhs => unfold utf8Step
  rw [if_neg (by omega), if_neg (by omega), if_pos (by omega)]
  show (if contB (0x80 + c.toNat % 0x40) then
      some (Char.ofNat ((0xC0 + c.toNat / 0x40 - 0xC0) * 0x40
        + (0x80 + c.toNat % 0x40 - 0x80)), rest)
    else none) = _
  rw [if_pos (show contB (0x80 + c.toNat % 0x40) = true from by
    simp only [contB, Bool.and_eq_true, decide_eq_true_eq]; omega)]
  rw [show (0xC0 + c.toNat / 0x40 - 0xC0) * 0x40 + (0x80 + c.toNat % 0x40 - 0x80)
      = c.toNat from by omega]
  rw [Char.ofNat_toNat]

theorem utf8Step_enc_c (c : Char) (rest : List Nat)
    (h2 : ¬ c.toNat < 0x800) (h3 : c.toNat < 0x10000) :
    utf8Step (0xE0 + c.toNat / 0x1000)
      ((0x80 + c.toNat / 0x40 % 0x40) :: ((0x80 + c.toNat % 0x40) :: rest))
      = some (c, rest) := by
  have hv := char_valid_nat c
  conv_lhs => unfold utf8Step
  rw [if_neg (by omega), if_neg (by omega), if_neg (by omega), if_pos (by omega)]
  show (if contB (0x80 + c.toNat / 0x40 % 0x40) && contB (0x80 + c.toNat % 0x40) then
      if (0xE0 + c.toNat / 0x1000 - 0xE0) * 0x1000
          + (0x80 + c.toNat / 0x40 % 0x40 - 0x80) * 0x40
          + (0x80 + c.toNat % 0x40 - 0x80) < 0x800 then none
      else if 0xD800 ≤ (0xE0 + c.toNat / 0x1000 - 0xE0) * 0x1000
          + (0x80 + c.toNat / 0x40 % 0x40 - 0x80) * 0x40
          + (0x80 + c.toNat % 0x40 - 0x80)
          ∧ (0xE0 + c.toNat / 0x1000 - 0xE0) * 0x1000
          + (0x80 + c.toNat / 0x40 % 0x40 - 0x80) * 0x40
          + (0x80 + c.toNat % 0x40 - 0x80) ≤ 0xDFFF then none
      else some (Char.ofNat ((0xE0 + c.toNat / 0x1000 - 0xE0) * 0x1000
          + (0x80 + c.toNat / 0x40 % 0x40 - 0x80) * 0x40
          + (0x80 + c.toNat % 0x40 - 0x80)), rest)
    else none) = _
  rw [show (0xE0 + c.toNat / 0x1000 - 0xE0) * 0x1000
      + (0x80 + c.toNat / 0x40 % 0x40 - 0x80) * 0x40
      + (0x80 + c.toNat % 0x40 - 0x80) = c.toNat from by omega]
  rw [if_pos (show (contB (0x80 + c.toNat / 0x40 % 0x40)
      && contB (0x80 + c.toNat % 0x40)) = true from by
    simp only [contB, Bool.and_eq_true, decide_eq_true_eq]
    omega)]
  rw [if_neg (by omega), if_neg (by omega), Char.ofNat_toNat]

theorem utf8Step_enc_d (c : Char) (rest : List Nat) (h3 : ¬ c.toNat < 0x10000) :
    utf8Step (0xF0 + c.toNat / 0x40000)
      ((0x80 + c.toNat / 0x1000 % 0x40) :: ((0x80 + c.toNat / 0x40 % 0x40)
        :: ((0x80 + c.toNat % 0x40) :: rest)))
      = some (c, rest) := by
  have hv := char_valid_nat c
  conv_lhs => unfold utf8Step
  rw [if_neg (by omega), if_neg (by omega), if_neg (by omega), if_neg (by omega),
    if_pos (by omega)]
  show (if contB (0x80 + c.toNat / 0x1000 % 0x40)
        && contB (0x80 + c.toNat / 0x40 % 0x40)
        && contB (0x80 + c.toNat % 0x40) then
      if (0xF0 + c.toNat / 0x40000 - 0xF0) * 0x40000
          + (0x80 + c.toNat / 0x1000 % 0x40 - 0x80) * 0x1000
          + (0x80 + c.toNat / 0x40 % 0x40 - 0x80) * 0x40
          + (0x80 + c.toNat % 0x40 - 0x80) < 0x10000 then none
      else if 0x110000 ≤ (0xF0 + c.toNat / 0x40000 - 0xF0) * 0x40000
          + (0x80 + c.toNat / 0x1000 % 0x40 - 0x80) * 0x1000
          + (0x80 + c.toNat / 0x40 % 0x40 - 0x80) * 0x40
          + (0x80 + c.toNat % 0x40 - 0x80) then none
      else some (Char.ofNat ((0xF0 + c.toNat / 0x40000 - 0xF0) * 0x40000
          + (0x80 + c.toNat / 0x1000 % 0x40 - 0x80) * 0x1000
          + (0x80 + c.toNat / 0x40 % 0x40 - 0x80) * 0x40
          + (0x80 + c.toNat % 0x40 - 0x80)), rest)
    else none) = _
  rw [show (0xF0 + c.toNat / 0x40000 - 0xF0) * 0x40000
      + (0x80 + c.toNat / 0x1000 % 0x40 - 0x80) * 0x1000
      + (0x80 + c.toNat / 0x40 % 0x40 - 0x80) * 0x40
      + (0x80 + c.toNat % 0x40 - 0x80) = c.toNat from by omega]
  rw [if_pos (show (contB (0x80 + c.toNat / 0x1000 % 0x40)
      && contB (0x80 + c.toNat / 0x40 % 0x40)
      && contB (0x80 + c.toNat % 0x40)) = true from by
    simp only [contB, Bool.and_eq_true, decide_eq_true_eq]
    omega)]
  rw [if_neg (by omega), if_neg (by omega), Char.ofNat_toNat]

theorem utf8DecodeList_encChar (c : Char) (rest : List Nat) :
    utf8DecodeList (utf8Bytes c ++ rest) = (utf8DecodeList rest).map fun cs => c :: cs := by
  by_cases h1 : c.toNat < 0x80
  · rw [show utf8Bytes c ++ rest = c.toNat :: rest from by
      unfold utf8Bytes; rw [if_pos h1]; rfl]
    exact utf8DecodeList_cons _ _ _ _ (utf8Step_enc_a c rest h1)
  · by_cases h2 : c.toNat < 0x800
    · rw [show utf8Bytes c ++ rest
          = (0xC0 + c.toNat / 0x40) :: ((0x80 + c.toNat % 0x40) :: rest) from by
        unfold utf8Bytes; rw [if_neg h1, if_pos h2]; rfl]
      exact utf8DecodeList_cons _ _ _ _ (utf8Step_enc_b c rest h1 h2)
    · by_cases h3 : c.toNat < 0x10000
      · rw [show utf8Bytes c ++ rest
            = (0xE0 + c.toNat / 0x1000) :: ((0x80 + c.toNat / 0x40 % 0x40)
              :: ((0x80 + c.toNat % 0x40) :: rest)) from by
          unfold utf8Bytes; rw [if_neg h1, if_neg h2, if_pos h3]; rfl]
        exact utf8DecodeList_cons _ _ _ _ (utf8Step_enc_c c rest h2 h3)
      · rw [show utf8Bytes c ++ rest
            = (0xF0 + c.toNat / 0x40000) :: ((0x80 + c.toNat / 0x1000 % 0x40)
              :: ((0x80 + c.toNat / 0x40 % 0x40) :: ((0x80 + c.toNat % 0x40) :: rest)))
            from by
          unfold utf8Bytes; rw [if_neg h1, if_neg h2, if_neg h3]; rfl]
        exact utf8DecodeList_cons _ _ _ _ (utf8Step_enc_d c rest h3)

theorem utf8DecodeList_flatMap :
    ∀ (l : List Char), utf8DecodeList (l.flatMap utf8Bytes) = some l := by
  intro l
  induction l with
  | nil => rfl
  | cons c cs ih =>
      simp only [List.flatMap_cons, utf8DecodeList_encChar, ih, Option.map_some']

theorem formValueDecode_plain (l : List Char) (h : ∀ c ∈ l, c ≠ '%' ∧ c ≠ '+') :
    formValueDecode l = some (String.mk l) := by
  unfold formValueDecode
  rw [percentDecodeBytes_plain l h]
  show (utf8DecodeList (l.flatMap utf8Bytes)).map (fun cs => String.mk cs) = _
  rw [utf8DecodeList_flatMap l]
  rfl

theorem formValueDecode_encodeURI (s : String) (h : '+' ∉ s.data) :
    formValueDecode ((encodeURI s).data) = some s := by
  unfold formValueDecode
  rw [show (encodeURI s).data = s.data.flatMap encodeURIChar from rfl]
  rw [percentDecodeBytes_encodeURI s.data h]
  show (utf8DecodeList (s.data.flatMap utf8Bytes)).map (fun cs => String.mk cs) = _
  rw [utf8DecodeList_flatMap]
  rfl

/-! ### Form decoding of encoded bodies -/

theorem formChar_facts (c : Char) (h : formChar c = true) :
    plainChar c = true ∧ c ≠ '&' ∧ c ≠ '%' ∧ c ≠ '+' ∧ c ≠ '=' := by
  simp only [formChar, Bool.and_eq_true, decide_eq_true_eq] at h
  obtain ⟨⟨⟨⟨hp, h38⟩, h37⟩, h43⟩, h61⟩ := h
  refine ⟨hp, ?_, ?_, ?_, ?_⟩ <;> intro hc <;> subst hc
  · exact h38 rfl
  · exact h37 rfl
  · exact h43 rfl
  · exact h61 rfl

theorem formStr_plainStr (s : String) (h : formStr s = true) : plainStr s = true := by
  unfold plainStr
  rw [List.all_eq_true]
  intro c hc
  exact (formChar_facts c (List.all_eq_true.mp h c hc)).1

theorem formStr_not_mem (s : String) (h : formStr s = true) :
    '&' ∉ s.data ∧ '=' ∉ s.data ∧ ∀ c ∈ s.data, c ≠ '%' ∧ c ≠ '+' := by
  refine ⟨?_, ?_, ?_⟩
  · intro hm
    exact (formChar_facts _ (List.all_eq_true.mp h _ hm)).2.1 rfl
  · intro hm
    exact (formChar_facts _ (List.all_eq_true.mp h _ hm)).2.2.2.2 rfl
  · intro c hm
    have hf := formChar_facts _ (List.all_eq_true.mp h _ hm)
    exact ⟨hf.2.2.1, hf.2.2.2.1⟩

theorem amp_not_mem_piece (k v : List Char) (hk : '&' ∉ k) (hv : '&' ∉ v) :
    '&' ∉ k ++ '=' :: v := by
  intro hm
  rcases List.mem_append.mp hm with hm | hm
  · exact hk hm
  · rcases List.mem_cons.mp hm with hm | hm
    · exact absurd hm (by decide)
    · exact hv hm

theorem splitOnAmp_append (a b : List Char) (h : '&' ∉ a) :
    splitOnAmp (a ++ '&' :: b) = a :: splitOnAmp b := by
  induction a with
  | nil =>
      show splitOnAmp ('&' :: b) = [] :: splitOnAmp b
      conv_lhs => unfold splitOnAmp
      rw [if_pos rfl]
  | cons c cs ih =>
      have hc : c ≠ '&' := fun hcc => h (by simp [hcc])
      have hm : '&' ∉ cs := fun hmm => h (List.mem_cons_of_mem c hmm)
      show splitOnAmp (c :: (cs ++ '&' :: b)) = _
      conv_lhs => unfold splitOnAmp
      rw [if_neg hc, ih hm]

theorem splitOnAmp_formJoin :
    ∀ (l : List (String × String)),
      (∀ kv ∈ l, '&' ∉ kv.1.data ∧ '&' ∉ kv.2.data) →
      splitOnAmp (formJoin l)
        = (l.map fun kv => kv.1.data ++ '=' :: kv.2.data) ++ [[]] := by
  intro l
  induction l with
  | nil => intro _; rfl
  | cons kv rest ih =>
      intro h
      have hkv := h kv (by simp)
      rw [show formJoin (kv :: rest)
          = (kv.1.data ++ '=' :: kv.2.data) ++ '&' :: formJoin rest from by
        show kv.1.data ++ '=' :: (kv.2.data ++ '&' :: formJoin rest) = _
        simp [List.append_assoc]]
      rw [splitOnAmp_append _ _ (amp_not_mem_piece _ _ hkv.1 hkv.2)]
      rw [ih fun p hp => h p (List.mem_cons_of_mem kv hp)]
      rfl

theorem splitFirstEq_append (k v : List Char) (h : '=' ∉ k) :
    splitFirstEq (k ++ '=' :: v) = (k, some v) := by
  induction k with
  | nil =>
      show splitFirstEq ('=' :: v) = _
      conv_lhs => unfold splitFirstEq
      rw [if_pos rfl]
  | cons c cs ih =>
      have hc : c ≠ '=' := fun hcc => h (by simp [hcc])
      have hm : '=' ∉ cs := fun hmm => h (List.mem_cons_of_mem c hmm)
      show splitFirstEq (c :: (cs ++ '=' :: v)) = _
      conv_lhs => unfold splitFirstEq
      rw [if_neg hc, ih hm]

theorem decodePiece_parts (k v : List Char) (k2 v2 : String) (hkeq : '=' ∉ k)
    (hk : formValueDecode k = some k2) (hv : formValueDecode v = some v2) :
    decodePiece (k ++ '=' :: v) = some (k2, v2) := by
  unfold decodePiece
  rw [splitFirstEq_append k v hkeq]
  show (match formValueDecode k, formValueDecode v with
    | some k3, some v3 => some (k3, v3)
    | _, _ => none) = _
  rw [hk, hv]

theorem mapM_decodePiece :
    ∀ (l : List (String × String)),
      (∀ kv ∈ l, formStr kv.1 = true ∧ formStr kv.2 = true) →
      List.mapM decodePiece (l.map fun kv => kv.1.data ++ '=' :: kv.2.data)
        = some l := by
  intro l
  induction l with
  | nil => intro _; rfl
  | cons kv rest ih =>
      intro h
      have hkv := h kv (by simp)
      have hk := formStr_not_mem kv.1 hkv.1
      have hv := formStr_not_mem kv.2 hkv.2
      rw [List.map_cons, List.mapM_cons]
      rw [decodePiece_parts kv.1.data kv.2.data kv.1 kv.2 hk.2.1
        (formValueDecode_plain kv.1.data hk.2.2)
        (formValueDecode_plain kv.2.data hv.2.2)]
      rw [ih fun p hp => h p (List.mem_cons_of_mem kv hp)]
      rfl

/-- The remote service's form decoding inverts the body that `plainify`
produces for a well-behaved all-string mapping (trailing empty segment
ignored). -/
theorem formDecode_formJoin (l : List (String × String))
    (h : ∀ kv ∈ l, formStr kv.1 = true ∧ formStr kv.2 = true) :
    formDecode (String.mk (formJoin l)) = some l := by
  unfold formDecode
  rw [show (String.mk (formJoin l)).data = formJoin l from rfl]
  rw [splitOnAmp_formJoin l fun kv hkv =>
    ⟨(formStr_not_mem kv.1 (h kv hkv).1).1, (formStr_not_mem kv.2 (h kv hkv).2).1⟩]
  rw [List.filter_append]
  rw [show List.filter (fun s => !s.isEmpty) [([] : List Char)] = [] from rfl]
  rw [List.append_nil]
  rw [List.filter_eq_self.mpr ?hne]
  case hne =>
    intro piece hp
    rcases List.mem_map.mp hp with ⟨kv, _, hkv⟩
    rw [← hkv]
    cases hd : kv.1.data <;> simp
  exact mapM_decodePiece l h

theorem foldl_append_eq : ∀ (l : List String) (s : String),
    l.foldl (· ++ ·) s = s ++ l.foldl (· ++ ·) "" := by
  intro l
  induction l with
  | nil => intro s; exact (String.append_empty s).symm
  | cons b l ih =>
      intro s
      rw [List.foldl_cons, List.foldl_cons, ih (s ++ b), ih ("" ++ b)]
      rw [show ("" ++ b) = b from rfl, String.append_assoc]

theorem join_formJoin : ∀ (l : List (String × String)),
    String.join (l.map fun kv => kv.1 ++ "=" ++ kv.2 ++ "&")
      = String.mk (formJoin l) := by
  intro l
  induction l with
  | nil => rfl
  | cons kv rest ih =>
      rw [List.map_cons]
      rw [show String.join ((kv.1 ++ "=" ++ kv.2 ++ "&")
            :: (rest.map fun kv => kv.1 ++ "=" ++ kv.2 ++ "&"))
          = (kv.1 ++ "=" ++ kv.2 ++ "&")
            ++ String.join (rest.map fun kv => kv.1 ++ "=" ++ kv.2 ++ "&") from by
        unfold String.join
        rw [List.foldl_cons, foldl_append_eq]
        rfl]
      rw [ih]
      apply String.ext
      simp only [String.data_append, formJoin]
      simp [show ("=" : String).data = ['='] from rfl,
        show ("&" : String).data = ['&'] from rfl]

theorem uriUnescaped_plain (c : Char) (h : uriUnescaped c = true) :
    plainChar c = true := by
  simp only [uriUnescaped, Bool.or_eq_true, Bool.and_eq_true, decide_eq_true_eq] at h
  simp only [plainChar, Bool.and_eq_true, decide_eq_true_eq]
  rcases h with ((h | h) | h) | hmem
  · exact ⟨⟨⟨⟨by omega, by omega⟩, by omega⟩, by omega⟩, by omega⟩
  · exact ⟨⟨⟨⟨by omega, by omega⟩, by omega⟩, by omega⟩, by omega⟩
  · exact ⟨⟨⟨⟨by omega, by omega⟩, by omega⟩, by omega⟩, by omega⟩
  · simp only [List.mem_cons, List.not_mem_nil, or_false] at hmem
    rcases hmem with h|h|h|h|h|h|h|h|h|h|h|h|h|h|h|h|h|h|h|h
    all_goals subst h
    all_goals decide

theorem hexDigitUpper_plain : ∀ n, n < 16 → plainChar (hexDigitUpper n) = true := by
  decide

theorem encodeURI_plainStr (s : String) : plainStr (encodeURI s) = true := by
  unfold plainStr
  rw [List.all_eq_true]
  intro c hc
  rw [show (encodeURI s).data = s.data.flatMap encodeURIChar from rfl] at hc
  rcases List.mem_flatMap.mp hc with ⟨c0, _, hcc⟩
  rw [show encodeURIChar c0
      = if uriUnescaped c0 then [c0] else (utf8Bytes c0).flatMap pctEscape from rfl] at hcc
  by_cases hu : uriUnescaped c0
  · rw [if_pos hu] at hcc
    have hceq : c = c0 := by simpa using hcc
    subst hceq
    exact uriUnescaped_plain c hu
  · rw [if_neg hu] at hcc
    rcases List.mem_flatMap.mp hcc with ⟨b, hb, hcb⟩
    have hblt := utf8Bytes_lt c0 b hb
    simp only [pctEscape, List.mem_cons, List.not_mem_nil, or_false] at hcb
    rcases hcb with h | h | h
    · subst h; decide
    · subst h; exact hexDigitUpper_plain (b / 16) (by omega)
    · subst h; exact hexDigitUpper_plain (b % 16) (by omega)

theorem encodeURI_no_amp (s : String) (h : '&' ∉ s.data) :
    '&' ∉ (encodeURI s).data := by
  intro hc
  rw [show (encodeURI s).data = s.data.flatMap encodeURIChar from rfl] at hc
  rcases List.mem_flatMap.mp hc with ⟨c0, hc0, hcc⟩
  rw [show encodeURIChar c0
      = if uriUnescaped c0 then [c0] else (utf8Bytes c0).flatMap pctEscape from rfl] at hcc
  by_cases hu : uriUnescaped c0
  · rw [if_pos hu] at hcc
    have hceq : '&' = c0 := by simpa using hcc
    rw [← hceq] at hc0
    exact h hc0
  · rw [if_neg hu] at hcc
    rcases List.mem_flatMap.mp hcc with ⟨b, hb, hcb⟩
    have hblt := utf8Bytes_lt c0 b hb
    have hhex : ∀ n, n < 16 → hexDigitUpper n ≠ '&' := by decide
    simp only [pctEscape, List.mem_cons, List.not_mem_nil, or_false] at hcb
    rcases hcb with h1 | h1 | h1
    · exact absurd h1 (by decide)
    · exact hhex (b / 16) (by omega) h1.symm
    · exact hhex (b % 16) (by omega) h1.symm

theorem protocolKnown_opts (o : ConnOptions)
    (hp : o.protocol = "https:" ∨ o.protocol = "http:") :
    protocolKnown ((JSv.opts o).getField "protocol") = true := by
  show protocolKnown (.str o.protocol) = true
  rcases hp with h | h <;> rw [h] <;> rfl

theorem performRequest_known (opt cookie : JSv) (path : String)
    (params : List (String × JSv)) (t : Request → TransportEvent)
    (hk : protocolKnown (opt.getField "protocol") = true) :
    performRequest opt cookie path params t
      = (settle (t (buildRequest opt cookie path (plainify params))),
         [buildRequest opt cookie path (plainify params)]) := by
  unfold performRequest
  rw [if_pos hk]

theorem performRequest_requests (opt cookie : JSv) (path : String)
    (params : List (String × JSv)) (t : Request → TransportEvent) (r : Request)
    (hr : r ∈ (performRequest opt cookie path params t).2) :
    r = buildRequest opt cookie path (plainify params) := by
  by_cases hk : protocolKnown (opt.getField "protocol") = true
  · rw [performRequest_known opt cookie path params t hk] at hr
    simpa using hr
  · unfold performRequest at hr
    rw [if_neg hk] at hr
    simp at hr

theorem key_not_mem_torrents (key : String) (f c s r lim off h : JSv)
    (hkey : ∀ kv ∈ [("filter", f), ("category", c), ("sort", s), ("reverse", r),
        ("limit", lim), ("offset", off), ("hashes", h)],
      kv.1 = key → truthy kv.2 = false) :
    key ∉ (torrentsParams f c s r lim off h).map Prod.fst := by
  intro hm
  rcases List.mem_map.mp hm with ⟨kv, hkv, hfst⟩
  rcases List.mem_filter.mp hkv with ⟨hmem, htr⟩
  rw [hkey kv hmem hfst] at htr
  exact absurd htr (by decide)

/-- A mock transport that answers every request with HTTP 200 and
`Set-Cookie: SID=abc123`. -/
def sidTransport : Request → TransportEvent :=
  fun _ => .response ⟨200, some ["SID=abc123"], ""⟩

/-! ### Claim theorems -/

/-- C1, counterexample: the encoder does not produce `&`-joined
`name=value` pairs without a trailing separator — the single string entry
`filter=all` yields `"filter=all&"` with a trailing `&` — and a number or
boolean entry is not converted to `name=value` at all: it is left in JSON
`"name":value` form. -/
theorem claim_c1_counterexample :
    plainify [("filter", JSv.str "all")] = "filter=all&"
      ∧ plainify [("filter", JSv.str "all")] ≠ "filter=all"
      ∧ plainify [("rid", JSv.num 5)] = "\"rid\":5"
      ∧ plainify [("reverse", JSv.bool true)] = "\"reverse\":true" :=
  ⟨by decide, by decide, by decide, by decide⟩

/-- C1 as amended: for every parameter mapping whose values are strings
free of `"`, `\`, braces and control characters, the encoder emits each
supplied entry exactly once as `name=value` in order, each entry followed
by `&` — so the body carries a trailing `&` separator (the empty mapping
yields the empty string); no entry appears for a parameter the caller did
not supply. Number- and boolean-valued entries are not converted (see the
counterexample). -/
theorem claim_c1_amended (l : List (String × String))
    (h : ∀ kv ∈ l, plainStr kv.1 = true ∧ plainStr kv.2 = true) :
    plainify (l.map fun kv => (kv.1, JSv.str kv.2))
      = String.join (l.map fun kv => kv.1 ++ "=" ++ kv.2 ++ "&") := by
  rw [join_formJoin l]
  exact congrArg String.mk (plainify_strings l h)

theorem claim_c1_witness :
    plainify [("filter", JSv.str "all"), ("limit", JSv.str "10")]
      = "filter=all&limit=10&" :=
  (claim_c1_amended [("filter", "all"), ("limit", "10")] (by decide)).trans (by decide)

/-- C2, counterexample: a mapping with a number value — whose textual form
`5` has no reserved characters — does not round-trip through encoding and
form-decoding: the entry stays in JSON form and decodes to the wrong
key/value. -/
theorem claim_c2_counterexample :
    formDecode (plainify [("rid", JSv.num 5)]) = some [("\"rid\":5", "")]
      ∧ formDecode (plainify [("rid", JSv.num 5)]) ≠ some [("rid", "5")] :=
  ⟨by decide, by decide⟩

/-- C2 as amended: for every parameter mapping whose values are strings
over characters that are neither form/URI-reserved (`&`, `%`, `+`, `=`)
nor JSON-structural (`"`, `\`, braces) nor control characters, encoding
with `plainify` and then form-decoding reproduces the original mapping
exactly (so the falsy-exclusion proviso is not even needed); mappings
with number or boolean values do not round-trip (see the
counterexample). -/
theorem claim_c2_amended (l : List (String × String))
    (h : ∀ kv ∈ l, formStr kv.1 = true ∧ formStr kv.2 = true) :
    formDecode (plainify (l.map fun kv => (kv.1, JSv.str kv.2))) = some l := by
  rw [show plainify (l.map fun kv => (kv.1, JSv.str kv.2)) = String.mk (formJoin l) from
    congrArg String.mk (plainify_strings l fun kv hkv =>
      ⟨formStr_plainStr _ (h kv hkv).1, formStr_plainStr _ (h kv hkv).2⟩)]
  exact formDecode_formJoin l h

theorem claim_c2_witness :
    formDecode (plainify [("category", JSv.str "movies"), ("hashes", JSv.str "abc123")])
      = some [("category", "movies"), ("hashes", "abc123")] :=
  claim_c2_amended [("category", "movies"), ("hashes", "abc123")] (by decide)

/-- C3, counterexample: `encodeURI` leaves `&` unescaped, so a category
name containing `&` is corrupted: `setCategory("h1", "a&b")` produces a
body that form-decodes to category `"a"` plus a stray key `"b"`, not to
the original string. -/
theorem claim_c3_counterexample :
    encodeURI "a&b" = "a&b"
      ∧ formDecode (plainify (setCategoryParams "h1" "a&b"))
          = some [("hash", "h1"), ("category", "a"), ("b", "")]
      ∧ formDecode (plainify (setCategoryParams "h1" "a&b"))
          ≠ some [("hash", "h1"), ("category", "a&b")] :=
  ⟨by decide, by decide, by decide⟩

/-- C3 as amended: for every string category value containing neither `&`
nor `+` (but possibly commas, whitespace, quotes, braces, percent signs or
non-ASCII characters), the body `setCategory` encodes survives the remote
form-decoding intact — in particular a category name containing a comma
round-trips. Values containing `&` or `+` are corrupted (see the
counterexample). -/
theorem claim_c3_amended (hash category : String) (hh : formStr hash = true)
    (hamp : '&' ∉ category.data) (hplus : '+' ∉ category.data) :
    formDecode (plainify (setCategoryParams hash category))
      = some [("hash", hash), ("category", category)] := by
  have hplain : plainify (setCategoryParams hash category)
      = String.mk (formJoin [("hash", hash), ("category", encodeURI category)]) :=
    congrArg String.mk (plainify_strings [("hash", hash), ("category", encodeURI category)]
      (by
        intro kv hkv
        simp only [List.mem_cons, List.not_mem_nil, or_false] at hkv
        rcases hkv with rfl | rfl
        · exact ⟨(by decide : plainStr "hash" = true), formStr_plainStr hash hh⟩
        · exact ⟨(by decide : plainStr "category" = true), encodeURI_plainStr category⟩))
  rw [hplain]
  unfold formDecode
  rw [show (String.mk (formJoin [("hash", hash), ("category", encodeURI category)])).data
      = formJoin [("hash", hash), ("category", encodeURI category)] from rfl]
  rw [splitOnAmp_formJoin [("hash", hash), ("category", encodeURI category)]
    (by
      intro kv hkv
      simp only [List.mem_cons, List.not_mem_nil, or_false] at hkv
      rcases hkv with rfl | rfl
      · exact ⟨(by decide : '&' ∉ ("hash" : String).data), (formStr_not_mem hash hh).1⟩
      · exact ⟨(by decide : '&' ∉ ("category" : String).data),
          encodeURI_no_amp category hamp⟩)]
  rw [List.filter_append,
    show List.filter (fun s => !s.isEmpty) [([] : List Char)] = [] from rfl,
    List.append_nil,
    List.filter_eq_self.mpr (by
      intro piece hp
      simp only [List.map_cons, List.map_nil, List.mem_cons, List.not_mem_nil,
        or_false] at hp
      rcases hp with rfl | rfl <;> rfl)]
  have hdp1 : decodePiece (("hash" : String).data ++ '=' :: hash.data)
      = some ("hash", hash) :=
    decodePiece_parts _ _ "hash" hash (by decide)
      (formValueDecode_plain ("hash" : String).data (by decide))
      (formValueDecode_plain hash.data (formStr_not_mem hash hh).2.2)
  have hdp2 : decodePiece (("category" : String).data ++ '=' :: (encodeURI category).data)
      = some ("category", category) :=
    decodePiece_parts _ _ "category" category (by decide)
      (formValueDecode_plain ("category" : String).data (by decide))
      (formValueDecode_encodeURI category hplus)
  rw [show ([("hash", hash), ("category", encodeURI category)].map
        fun kv => kv.1.data ++ '=' :: kv.2.data)
      = [("hash" : String).data ++ '=' :: hash.data,
         ("category" : String).data ++ '=' :: (encodeURI category).data] from rfl]
  rw [List.mapM_cons, hdp1, List.mapM_cons, hdp2, List.mapM_nil]
  rfl

theorem claim_c3_witness :
    formDecode (plainify (setCategoryParams "a1b2" "movies,tv é"))
      = some [("hash", "a1b2"), ("category", "movies,tv é")] :=
  claim_c3_amended "a1b2" "movies,tv é" (by decide) (by decide) (by decide)

/-- C4, counterexample: `log` is a capability method with optional
parameters, yet calling it with `normal = false` does not omit the
parameter: the mapping still contains the `normal` entry and the encoded
body carries it (in unconverted JSON form, since the values are not
strings). -/
theorem claim_c4_counterexample :
    ("normal", JSv.bool false)
        ∈ logParams (.bool false) (.bool true) (.bool true) (.bool true) (.num (-1))
      ∧ plainify (logParams (.bool false) (.bool true) (.bool true) (.bool true)
          (.num (-1)))
        = "\"normal\":false,\"info\":true,\"warning\":true,\"critical\":true,\"last_known_id\":-1" :=
  ⟨by decide, by decide⟩

/-- C4 as amended: capability methods that guard each optional parameter
with a truthiness test (e.g. `torrents`) do omit non-truthy arguments —
`torrents` called with `reverse = false` and `limit = 0` emits neither a
`reverse` nor a `limit` entry — but `log` always includes its five
parameters, so `log` with `normal = false` does send a `normal` entry. -/
theorem claim_c4_amended (f c s r lim off h n i w cr lk : JSv)
    (hrv : truthy r = false) (hlim : truthy lim = false) :
    "reverse" ∉ (torrentsParams f c s r lim off h).map Prod.fst
      ∧ "limit" ∉ (torrentsParams f c s r lim off h).map Prod.fst
      ∧ ("normal", n) ∈ logParams n i w cr lk := by
  refine ⟨?_, ?_, List.mem_cons_self _ _⟩
  · apply key_not_mem_torrents
    intro kv hmem hfst
    fin_cases hmem
    · exact absurd hfst (by decide : ¬("filter" : String) = "reverse")
    · exact absurd hfst (by decide : ¬("category" : String) = "reverse")
    · exact absurd hfst (by decide : ¬("sort" : String) = "reverse")
    · exact hrv
    · exact absurd hfst (by decide : ¬("limit" : String) = "reverse")
    · exact absurd hfst (by decide : ¬("offset" : String) = "reverse")
    · exact absurd hfst (by decide : ¬("hashes" : String) = "reverse")
  · apply key_not_mem_torrents
    intro kv hmem hfst
    fin_cases hmem
    · exact absurd hfst (by decide : ¬("filter" : String) = "limit")
    · exact absurd hfst (by decide : ¬("category" : String) = "limit")
    · exact absurd hfst (by decide : ¬("sort" : String) = "limit")
    · exact absurd hfst (by decide : ¬("reverse" : String) = "limit")
    · exact hlim
    · exact absurd hfst (by decide : ¬("offset" : String) = "limit")
    · exact absurd hfst (by decide : ¬("hashes" : String) = "limit")

theorem claim_c4_witness :
    "reverse" ∉ (torrentsParams (.str "all") .undefined .undefined (.bool false)
        (.num 0) .undefined .undefined).map Prod.fst
      ∧ "limit" ∉ (torrentsParams (.str "all") .undefined .undefined (.bool false)
        (.num 0) .undefined .undefined).map Prod.fst
      ∧ ("normal", JSv.bool false)
        ∈ logParams (.bool false) (.bool true) (.bool true) (.bool true) (.num (-1)) :=
  claim_c4_amended (.str "all") .undefined .undefined (.bool false) (.num 0)
    .undefined .undefined (.bool false) (.bool true) (.bool true) (.bool true)
    (.num (-1)) rfl rfl

/-- C5: when the transport answers the login request with HTTP 200 and
`Set-Cookie: SID=abc123`, `connect` resolves with a capability handle
whose session token is the first `Set-Cookie` value, and every request a
capability call issues through that handle (all of them go through
`handleCall`/`performRequest` with the captured cookie) carries the
`Cookie: SID=abc123` header. -/
theorem claim_c5 (opt : ConnOptions) (u p : String)
    (hp : opt.protocol = "https:" ∨ opt.protocol = "http:") :
    (connectR opt u p sidTransport).result = .ok ⟨opt, .str "SID=abc123"⟩
      ∧ ∀ (path : String) (params : List (String × JSv))
          (t : Request → TransportEvent) (r : Request),
          r ∈ (handleCall ⟨opt, .str "SID=abc123"⟩ path params t).2 →
          r.cookie = .str "SID=abc123" := by
  have hpk := protocolKnown_opts opt hp
  constructor
  · unfold connectR
    rw [performRequest_known _ _ _ _ _ hpk]
    rfl
  · intro path params t r hr
    rw [performRequest_requests _ _ _ _ _ _ hr]
    rfl

theorem claim_c5_witness :
    (connectR ⟨"example.com", "https:", 443⟩ "admin" "secret" sidTransport).result
        = .ok ⟨⟨"example.com", "https:", 443⟩, .str "SID=abc123"⟩
      ∧ (buildRequest (.opts ⟨"example.com", "https:", 443⟩) (.str "SID=abc123")
          "/app/version" (plainify [])).cookie = .str "SID=abc123" :=
  ⟨(claim_c5 ⟨"example.com", "https:", 443⟩ "admin" "secret" (Or.inl rfl)).1,
   (claim_c5 ⟨"example.com", "https:", 443⟩ "admin" "secret" (Or.inl rfl)).2
     "/app/version" [] sidTransport _ (by decide)⟩

/-- C6: a capability call whose HTTP response has a status other than 200
rejects with `Error('HTTP request error: <status>')` — an error naming
the numeric status — and the transport receives exactly one request, so
no retry is attempted. -/
theorem claim_c6 (opt : ConnOptions) (cookie : JSv) (path : String)
    (params : List (String × JSv)) (st : Nat) (body : String)
    (hp : opt.protocol = "https:" ∨ opt.protocol = "http:") (hst : st ≠ 200) :
    (performRequest (.opts opt) cookie path params
        (fun _ => .response ⟨st, none, body⟩)).1
      = .error (.mk ("HTTP request error: " ++ toString st) none)
    ∧ (performRequest (.opts opt) cookie path params
        (fun _ => .response ⟨st, none, body⟩)).2
      = [buildRequest (.opts opt) cookie path (plainify params)] := by
  have hpk := protocolKnown_opts opt hp
  rw [performRequest_known _ _ _ _ _ hpk]
  refine ⟨?_, rfl⟩
  show settle (.response ⟨st, none, body⟩) = _
  simp only [settle]
  rw [if_neg hst]

theorem claim_c6_witness :
    (performRequest (.opts ⟨"example.com", "https:", 8080⟩) (.str "SID=abc123")
        "/torrents/info" []
        (fun _ => .response ⟨403, none, ""⟩)).1
      = .error (.mk ("HTTP request error: " ++ toString 403) none)
    ∧ (performRequest (.opts ⟨"example.com", "https:", 8080⟩) (.str "SID=abc123")
        "/torrents/info" []
        (fun _ => .response ⟨403, none, ""⟩)).2
      = [buildRequest (.opts ⟨"example.com", "https:", 8080⟩) (.str "SID=abc123")
          "/torrents/info" (plainify [])] :=
  claim_c6 ⟨"example.com", "https:", 8080⟩ (.str "SID=abc123") "/torrents/info" []
    403 "" (Or.inl rfl) (by decide)

/-- C7, counterexample: when the login request is answered with HTTP 403,
`connect` throws `Error('Login failed with username: admin')` whose
`cause` is `none` — the underlying `HTTP request error: 403` is only
passed to `console.error`, not wrapped into the thrown error, so the
claimed causal chain does not exist. -/
theorem claim_c7_counterexample :
    (connectR ⟨"example.com", "https:", 443⟩ "admin" "secret"
        (fun _ => .response ⟨403, none, ""⟩)).result
      = .error (.mk "Login failed with username: admin" none)
    ∧ (connectR ⟨"example.com", "https:", 443⟩ "admin" "secret"
        (fun _ => .response ⟨403, none, ""⟩)).logged
      = [.mk "HTTP request error: 403" none] :=
  ⟨rfl, rfl⟩

/-- C7 as amended: on a non-200 login response or a transport-level
failure, `connect` fails with an error that names the username attempted,
but it does not wrap the underlying error: the thrown error's cause is
`none`, and the underlying error is only logged via `console.error`. -/
theorem claim_c7_amended (opt : ConnOptions) (u p : String) (st : Nat)
    (body msg : String)
    (hp : opt.protocol = "https:" ∨ opt.protocol = "http:") (hst : st ≠ 200) :
    ((connectR opt u p (fun _ => .response ⟨st, none, body⟩)).result
        = .error (.mk ("Login failed with username: " ++ u) none)
      ∧ (connectR opt u p (fun _ => .response ⟨st, none, body⟩)).logged
        = [.mk ("HTTP request error: " ++ toString st) none])
    ∧ ((connectR opt u p (fun _ => .error msg)).result
        = .error (.mk ("Login failed with username: " ++ u) none)
      ∧ (connectR opt u p (fun _ => .error msg)).logged = [.mk msg none]) := by
  have hpk := protocolKnown_opts opt hp
  have hsettle : settle (.response ⟨st, none, body⟩)
      = .error (.mk ("HTTP request error: " ++ toString st) none) := by
    simp only [settle]
    rw [if_neg hst]
  constructor
  · constructor
    · unfold connectR
      rw [performRequest_known _ _ _ _ _ hpk, hsettle]
    · unfold connectR
      rw [performRequest_known _ _ _ _ _ hpk, hsettle]
  · constructor
    · unfold connectR
      rw [performRequest_known _ _ _ _ _ hpk]
      rfl
    · unfold connectR
      rw [performRequest_known _ _ _ _ _ hpk]
      rfl

theorem claim_c7_witness :
    ((connectR ⟨"qbt.local", "http:", 80⟩ "alice" "pw"
        (fun _ => .response ⟨500, none, ""⟩)).result
      = .error (.mk ("Login failed with username: " ++ "alice") none)
    ∧ (connectR ⟨"qbt.local", "http:", 80⟩ "alice" "pw"
        (fun _ => .response ⟨500, none, ""⟩)).logged
      = [.mk ("HTTP request error: " ++ toString 500) none])
    ∧ ((connectR ⟨"qbt.local", "http:", 80⟩ "alice" "pw"
        (fun _ => .error "ECONNREFUSED")).result
      = .error (.mk ("Login failed with username: " ++ "alice") none)
    ∧ (connectR ⟨"qbt.local", "http:", 80⟩ "alice" "pw"
        (fun _ => .error "ECONNREFUSED")).logged
      = [.mk "ECONNREFUSED" none]) :=
  claim_c7_amended ⟨"qbt.local", "http:", 80⟩ "alice" "pw" 500 "" "ECONNREFUSED"
    (Or.inr rfl) (by decide)

/-- C8: the port condition `opt.port != 80 || opt.port != 443` in the
`Referer`/`Origin` construction is a tautology — it holds for every port,
including the scheme defaults — so the `:port` suffix is always appended,
never omitted: `Referer`/`Origin` for https on port 443 is
`https://example.com:443`, where the claim requires `https://example.com`. -/
theorem claim_c8_code_bug :
    (∀ (o : ConnOptions), originOf (.opts o)
        = o.protocol ++ "//" ++ o.hostname ++ (":" ++ toString o.port))
      ∧ (buildRequest (.opts ⟨"example.com", "https:", 443⟩) .nullv
          "/app/version" "").referer = "https://example.com:443"
      ∧ (buildRequest (.opts ⟨"example.com", "http:", 80⟩) .nullv
          "/app/version" "").origin = "http://example.com:80" := by
  refine ⟨?_, by decide, by decide⟩
  intro o
  have hcond : jsNeqNum ((JSv.opts o).getField "port") 80 = true
      ∨ jsNeqNum ((JSv.opts o).getField "port") 443 = true := by
    by_cases h80 : o.port = 80
    · right
      show decide ((o.port : Int) ≠ 443) = true
      rw [h80]
      decide
    · left
      show decide ((o.port : Int) ≠ 80) = true
      simp only [decide_eq_true_eq]
      omega
  unfold originOf
  rw [if_pos hcond]
  rfl

/-- C9: `addTags` and `removeTags` reference the undefined identifier
`hashed` while building their parameter object, and the handle's `rename`
binding calls the implementation without the connection options and
cookie, so `protocol[options.protocol]` is undefined; all three reject
before any HTTP request reaches the transport (the issued-request list is
empty). -/
theorem claim_c9 (h : Handle) (hashes tags hash name : String)
    (t : Request → TransportEvent) :
    Handle.addTags h (.str hashes) (.str tags) t
        = (.error (.mk "ReferenceError: hashed is not defined" none), [])
      ∧ Handle.removeTags h (.str hashes) (.str tags) t
        = (.error (.mk "ReferenceError: hashed is not defined" none), [])
      ∧ Handle.rename h (.str hash) (.str name) t
        = (.error (.mk "TypeError: protocol[options.protocol] is undefined" none),
           []) :=
  ⟨rfl, rfl, rfl⟩

/-- C10: the `setShareLimit` binding drops the caller's `hashes` and
shifts the remaining arguments: the outgoing body's `hashes` field
carries the caller's `ratioLimit`, its `ratioLimit` field carries the
caller's `seedingTimeLimit`, and no `seedingTimeLimit` field is sent at
all (the implementation's own `seedingTimeLimit` is `undefined`, which
`JSON.stringify` drops); the caller's `hashes` value appears nowhere in
the body. -/
theorem claim_c10 (o : ConnOptions) (cookie : JSv) (hs r s : String)
    (t : Request → TransportEvent)
    (hp : o.protocol = "https:" ∨ o.protocol = "http:")
    (hr : plainStr r = true) (hs2 : plainStr s = true) :
    (Handle.setShareLimit ⟨o, cookie⟩ (.str hs) (.str r) (.str s) t).2.map
        Request.body
      = ["hashes=" ++ r ++ "&ratioLimit=" ++ s ++ "&"] := by
  have hpk := protocolKnown_opts o hp
  show (performRequest (.opts o) cookie "/torrents/setShareLimits"
      [("hashes", .str r), ("ratioLimit", .str s), ("seedingTimeLimit", .undefined)]
      t).2.map Request.body = _
  rw [performRequest_known _ _ _ _ _ hpk]
  show [plainify [("hashes", .str r), ("ratioLimit", .str s),
      ("seedingTimeLimit", .undefined)]] = _
  rw [show plainify [("hashes", .str r), ("ratioLimit", .str s),
        ("seedingTimeLimit", .undefined)]
      = String.mk (formJoin [("hashes", r), ("ratioLimit", s)]) from
    congrArg String.mk (plainify_strings [("hashes", r), ("ratioLimit", s)] (by
      intro kv hkv
      simp only [List.mem_cons, List.not_mem_nil, or_false] at hkv
      rcases hkv with rfl | rfl
      · exact ⟨(by decide : plainStr "hashes" = true), hr⟩
      · exact ⟨(by decide : plainStr "ratioLimit" = true), hs2⟩))]
  rw [← join_formJoin [("hashes", r), ("ratioLimit", s)]]
  show [String.join ["hashes" ++ "=" ++ r ++ "&", "ratioLimit" ++ "=" ++ s ++ "&"]]
      = _
  congr 1
  apply String.ext
  simp [String.data_append, String.join]

theorem claim_c10_witness :
    (Handle.setShareLimit ⟨⟨"example.com", "https:", 8080⟩, .nullv⟩
        (.str "aaa") (.str "1.5") (.str "60") sidTransport).2.map Request.body
      = ["hashes=1.5&ratioLimit=60&"] :=
  claim_c10 ⟨"example.com", "https:", 8080⟩ .nullv "aaa" "1.5" "60" sidTransport
    (Or.inl rfl) (by decide) (by decide)

end Qbt
